import Mathlib

/-!
Verification of the retrieval core of a browser-based document question-answering
tool.  The source program (src/src/App.jsx) provides:

* tokenize      - lowercase alphanumeric tokenization (App.jsx lines 27-33)
* dot, cosineSim - vector similarity (App.jsx lines 37-53)
* fetchEmbedding - embedding client degrading to null (App.jsx lines 59-73)
* callAnswerAPI  - generation client with a fixed apology fallback (lines 80-94)
* chunking       - fixed 500-character document chunking (lines 204-214)
* handleAsk      - query scoring, ranking, top-5 selection, context assembly
                   and answer production (lines 224-247)

Strings are modelled as `List Char`, JavaScript numbers as `ℚ` for vector
entries (every IEEE double is rational) with similarity values in `ℝ`
(`Math.sqrt` is modelled by `Real.sqrt`).  The two HTTP collaborators are
modelled as oracle parameters describing the response the provider would give,
covering network rejection, non-success statuses and body-parsing outcomes.
-/

namespace CapsOps

/-! ### Tokenizer (App.jsx lines 27-33)

`tokenize` lowercases the input, splits on the regex class of
non-(lowercase-alphanumeric) characters and drops empty pieces
(`.filter(Boolean)`).  Splitting a string on every single delimiter character
and then dropping empty pieces yields exactly the same list as splitting on
maximal delimiter runs and dropping empty pieces, so `splitP` splits at each
delimiter character.  -/

/-- Characters the regex class `[a-z0-9]` accepts (the source applies it after
`toLowerCase`). -/
def isAlnum (c : Char) : Bool :=
  ('a' ≤ c && c ≤ 'z') || ('0' ≤ c && c ≤ '9')

/-- Split a character list at every character satisfying `p`, keeping empty
pieces, as `String.prototype.split` does with a single-character separator. -/
def splitP (p : Char → Bool) : List Char → List (List Char)
  | [] => [[]]
  | c :: cs =>
    if p c then [] :: splitP p cs
    else
      match splitP p cs with
      | [] => [[c]]
      | t :: ts => (c :: t) :: ts

/-- `tokenize` from App.jsx lines 27-33: guard for falsy input, lowercase,
split on non-alphanumeric characters, drop empty pieces. -/
def tokenize (s : List Char) : List (List Char) :=
  if s.isEmpty then []
  else (splitP (fun c => !isAlnum c) (s.map Char.toLower)).filter (fun t => !t.isEmpty)

/-! ### Chunker (App.jsx lines 204-214)

The upload handler slices the extracted text with
`for (let i = 0; i < text.length; i += 500) text.slice(i, i + 500)`,
which is exactly the take-500/drop-500 recursion below. -/

/-- Fixed-size 500-character chunking of a document text. -/
def chunk500 (t : List Char) : List (List Char) :=
  if h : t = [] then []
  else t.take 500 :: chunk500 (t.drop 500)
termination_by t.length
decreasing_by
  simp only [List.length_drop]
  have : 0 < t.length := List.length_pos.mpr h
  omega

/-! ### Vector similarity (App.jsx lines 37-53)

Vector entries are modelled as rationals (every JavaScript float is a
rational); the similarity value lives in `ℝ` because of `Math.sqrt`. -/

/-- `dot` from App.jsx lines 37-42: the loop runs over
`Math.min(a.length, b.length)` indices and accumulates `a[i] * b[i]`. -/
def dot (a b : List ℚ) : ℚ :=
  (List.range (min a.length b.length)).foldl (fun sum i => sum + a.getD i 0 * b.getD i 0) 0

/-- Squared magnitude accumulated by `for (const x of a) magA += x * x` in
`cosineSim` (App.jsx lines 48-51). -/
def magSq (a : List ℚ) : ℚ :=
  a.foldl (fun s x => s + x * x) 0

/-- `cosineSim` from App.jsx lines 46-53: `magA && magB` is truthy exactly when
both squared magnitudes are nonzero; otherwise the result is the number 0. -/
noncomputable def cosineSim (a b : List ℚ) : ℝ :=
  if magSq a ≠ 0 ∧ magSq b ≠ 0 then
    ((dot a b : ℚ) : ℝ) / Real.sqrt (((magSq a * magSq b : ℚ) : ℝ))
  else 0

/-! ### Data model (App.jsx lines 119-122 and 211)

The index stores objects `{ id, docId, text, embedding }`; identifiers are
opaque, so they are modelled as naturals. -/

/-- An index entry `{ id, docId, text, embedding }` (App.jsx line 211). -/
structure Chunk where
  id : Nat
  docId : Nat
  text : List Char
  embedding : Option (List ℚ)

/-- A chunk paired with the ranking-time score `{ ...ch, score }`
(App.jsx lines 232 and 239). -/
structure ScoredChunk where
  chunk : Chunk
  score : ℝ

/-- The answer state `{ text, sources }` set at App.jsx line 246.  `text` is an
`Option` because `data.answer` can be the JavaScript value `undefined` when a
parseable response body lacks the `answer` field. -/
structure Answer where
  text : Option (List Char)
  sources : List ScoredChunk

/-! ### HTTP collaborators (App.jsx lines 59-94)

A provider interaction is modelled by the response it would produce:
`net_err` is a rejected `fetch`, `http ok body` is a settled response with
success flag `ok` and a body whose JSON parse either fails (`Except.error`)
or succeeds with an optional expected field (`none` models a parseable body
in which the field is absent, so the access yields `undefined`). -/

/-- Outcome of one HTTP request; `β` is the type of the extracted field. -/
inductive HttpResp (β : Type) where
  | net_err : HttpResp β
  | http (ok : Bool) (body : Except Unit β) : HttpResp β

/-- `fetchEmbedding` from App.jsx lines 59-73: every rejection, non-success
status or body-parse failure is caught and becomes `null`; a parseable body
yields `data.embedding`, which is `undefined` (`none`) when absent. -/
def fetchEmbedding : HttpResp (Option (List ℚ)) → Option (List ℚ)
  | .net_err => none
  | .http false _ => none
  | .http true (.error _) => none
  | .http true (.ok body) => body

/-- The fixed apology sentinel of App.jsx line 92. -/
def fallbackAnswer : List Char :=
  "Sorry, I was unable to generate an answer at this time.".toList

/-- `callAnswerAPI` from App.jsx lines 80-94: every rejection, non-success
status or body-parse failure is caught and becomes the apology string; a
parseable body yields `data.answer`, which is `undefined` (`none`) when the
field is absent. -/
def callAnswerAPI : HttpResp (Option (List Char)) → Option (List Char)
  | .net_err => some fallbackAnswer
  | .http false _ => some fallbackAnswer
  | .http true (.error _) => some fallbackAnswer
  | .http true (.ok body) => body

/-- Generation-provider responses that the `try/catch` of `callAnswerAPI`
treats as failed: rejected fetch, non-success status, or unparseable body. -/
def answerFailed : HttpResp (Option (List Char)) → Bool
  | .net_err => true
  | .http false _ => true
  | .http true (.error _) => true
  | .http true (.ok _) => false

/-- Embedding-provider responses after which `fetchEmbedding` yields no
usable vector: rejected fetch, non-success status, unparseable body, or a
parseable body without an `embedding` field. -/
def embedFailed : HttpResp (Option (List ℚ)) → Bool
  | .net_err => true
  | .http false _ => true
  | .http true (.error _) => true
  | .http true (.ok none) => true
  | .http true (.ok (some _)) => false

/-! ### The ask pipeline (App.jsx lines 224-247) -/

/-- The ASCII whitespace removed by `String.prototype.trim` (the JavaScript
set also has Unicode space separators, which the claims do not exercise). -/
def isJsWS (c : Char) : Bool :=
  c = ' ' || c = '\t' || c = '\n' || c = '\r' || c = '\x0b' || c = '\x0c'

/-- `query.trim()` at App.jsx line 225. -/
def trim (l : List Char) : List Char :=
  ((l.dropWhile isJsWS).reverse.dropWhile isJsWS).reverse

/-- Fallback keyword score of one chunk (App.jsx lines 235-239):
`qTokens.filter(t => cTokens.includes(t)).length`. -/
def fallbackScore (question : List Char) (ch : Chunk) : Nat :=
  ((tokenize question).filter (fun t => (tokenize ch.text).contains t)).length

/-- Scoring of the whole index (App.jsx lines 231-241): cosine similarity
against `ch.embedding || []` when a query embedding is present, token-overlap
counting otherwise. -/
noncomputable def scoreIndex (qEmbedding : Option (List ℚ)) (question : List Char)
    (index : List Chunk) : List ScoredChunk :=
  match qEmbedding with
  | some qe => index.map fun ch => ⟨ch, cosineSim qe (ch.embedding.getD [])⟩
  | none => index.map fun ch => ⟨ch, (fallbackScore question ch : ℝ)⟩

/-- One insertion step of a stable descending-by-score sort: the new element
goes in front of the first element whose score is not larger. -/
noncomputable def insertDesc (c : ScoredChunk) : List ScoredChunk → List ScoredChunk
  | [] => [c]
  | d :: ds => if d.score ≤ c.score then c :: d :: ds else d :: insertDesc c ds

/-- Stable insertion sort, descending by score.  ECMAScript requires
`scored.sort((a, b) => b.score - a.score)` (App.jsx line 242) to be a stable
sort consistent with the comparator, and the stable descending-by-score
permutation of a list is unique, so this computes the same list. -/
noncomputable def sortDesc : List ScoredChunk → List ScoredChunk
  | [] => []
  | c :: cs => insertDesc c (sortDesc cs)

/-- `scored.sort(...)` followed by `scored.slice(0, 5)`
(App.jsx lines 242-243). -/
noncomputable def rankTop (l : List ScoredChunk) : List ScoredChunk :=
  (sortDesc l).take 5

/-- The separator of `top.map(ch => ch.text).join('\n---\n')`
(App.jsx line 244). -/
def ctxSep : List Char := ['\n', '-', '-', '-', '\n']

/-- Context assembly (App.jsx line 244): the chunk texts joined with the fixed
separator, preserving rank order. -/
def joinContext (ts : List (List Char)) : List Char :=
  List.intercalate ctxSep ts

/-- Observable outcome of one `handleAsk` run: the answer slot after the run,
how many embedding and generation requests were issued, and the context string
sent to the generation provider (if any). -/
structure AskOutcome where
  answer : Option Answer
  embedCalls : Nat
  answerCalls : Nat
  contextSent : Option (List Char)

/-- `handleAsk` from App.jsx lines 224-247, as a function of the two provider
responses, the index, the raw query and the previous answer state.  An empty
trimmed question returns before any request (line 226); otherwise exactly one
embedding request and one generation request happen, the index is scored,
sorted descending, cut to the top 5, and the answer `{ text, sources }` is
stored. -/
noncomputable def handleAsk (embedResp : HttpResp (Option (List ℚ)))
    (answerResp : HttpResp (Option (List Char)))
    (index : List Chunk) (query : List Char) (prevAnswer : Option Answer) :
    AskOutcome :=
  if trim query = [] then ⟨prevAnswer, 0, 0, none⟩
  else
    ⟨some ⟨callAnswerAPI answerResp,
        rankTop (scoreIndex (fetchEmbedding embedResp) (trim query) index)⟩,
      1, 1,
      some (joinContext
        ((rankTop (scoreIndex (fetchEmbedding embedResp) (trim query) index)).map
          fun sc => sc.chunk.text))⟩

/-- The source list displayed after an ask (empty when no answer is stored). -/
noncomputable def askSources (embedResp : HttpResp (Option (List ℚ)))
    (answerResp : HttpResp (Option (List Char)))
    (index : List Chunk) (query : List Char) (prevAnswer : Option Answer) :
    List ScoredChunk :=
  ((handleAsk embedResp answerResp index query prevAnswer).answer).elim [] Answer.sources

/-- A concrete index entry with no embedding, used by the witnesses. -/
def sampleChunk : Chunk := ⟨0, 0, [], none⟩

/-- A concrete query, scenario C of the specification: close the store. -/
def sampleQuery : List Char :=
  ['c', 'l', 'o', 's', 'e', ' ', 't', 'h', 'e', ' ', 's', 't', 'o', 'r', 'e']

/-- A chunk overlapping the sample query in two token occurrences. -/
def sampleChunkA : Chunk := ⟨1, 0, ['t', 'h', 'e', ' ', 's', 't', 'o', 'r', 'e'], none⟩

/-- A chunk overlapping the sample query in no token occurrence. -/
def sampleChunkB : Chunk := ⟨2, 0, ['x'], none⟩

theorem chunk500_nil : chunk500 [] = [] := by
  rw [chunk500]
  simp

theorem chunk500_cons (t : List Char) (h : t ≠ []) :
    chunk500 t = t.take 500 :: chunk500 (t.drop 500) := by
  rw [chunk500]
  simp [h]

theorem chunk500_flatten (t : List Char) : (chunk500 t).flatten = t := by
  induction t using chunk500.induct with
  | case1 => simp [chunk500_nil]
  | case2 t h ih =>
    rw [chunk500_cons t h]
    simp [List.flatten, ih]

theorem chunk500_length (t : List Char) :
    (chunk500 t).length = (t.length + 499) / 500 := by
  induction t using chunk500.induct with
  | case1 => simp [chunk500_nil]
  | case2 t h ih =>
    rw [chunk500_cons t h]
    have hpos : 0 < t.length := List.length_pos.mpr h
    simp only [List.length_cons, List.length_drop] at ih ⊢
    omega

theorem chunk500_ne_nil (t : List Char) (h : t ≠ []) : chunk500 t ≠ [] := by
  rw [chunk500_cons t h]
  exact List.cons_ne_nil _ _

theorem chunk500_dropLast (t : List Char) :
    ∀ c ∈ (chunk500 t).dropLast, c.length = 500 := by
  induction t using chunk500.induct with
  | case1 => simp [chunk500_nil]
  | case2 t h ih =>
    rw [chunk500_cons t h]
    by_cases hd : t.drop 500 = []
    · rw [hd, chunk500_nil]
      simp
    · have hlen : 500 < t.length := by
        have := List.length_pos.mpr hd
        simp only [List.length_drop] at this
        omega
      obtain ⟨r, rs, hr⟩ := List.exists_cons_of_ne_nil (chunk500_ne_nil _ hd)
      rw [hr]
      intro c hc
      rw [← hr] at hc
      rw [List.dropLast_cons_of_ne_nil (hr ▸ List.cons_ne_nil _ _)] at hc
      rcases List.mem_cons.mp hc with hc | hc
      · subst hc
        simp [List.length_take]
        omega
      · exact ih c hc

/-- C1: chunking a document text with size 500 produces exactly
ceil(length / 500) chunks, concatenating the chunks in order reconstructs the
text, every chunk except possibly the last has length exactly 500, and the
empty text yields zero chunks. -/
theorem chunking_spec (t : List Char) :
    (chunk500 t).length = (t.length + 499) / 500 ∧
    (chunk500 t).flatten = t ∧
    ((chunk500 t).dropLast.all fun c => c.length == 500) = true ∧
    chunk500 [] = [] := by
  refine ⟨chunk500_length t, chunk500_flatten t, ?_, chunk500_nil⟩
  rw [List.all_eq_true]
  intro c hc
  exact beq_iff_eq.mpr (chunk500_dropLast t c hc)

/-! ### Tokenizer lemmas -/

theorem char_toNat_le {a b : Char} (h : a ≤ b) : a.toNat ≤ b.toNat := h

theorem toLower_fixed {c : Char} (h : isAlnum c = true) : c.toLower = c := by
  have hrange : ('a' ≤ c ∧ c ≤ 'z') ∨ ('0' ≤ c ∧ c ≤ '9') := by
    simpa [isAlnum, Bool.or_eq_true, Bool.and_eq_true, decide_eq_true_eq] using h
  have hn : 97 ≤ c.toNat ∨ c.toNat ≤ 57 := by
    rcases hrange with ⟨h1, _⟩ | ⟨_, h2⟩
    · exact Or.inl (char_toNat_le h1)
    · exact Or.inr (char_toNat_le h2)
  unfold Char.toLower
  have : ¬(c.toNat ≥ 65 ∧ c.toNat ≤ 90) := by omega
  simp [this]

theorem splitP_ne_nil (p : Char → Bool) (l : List Char) : splitP p l ≠ [] := by
  induction l with
  | nil => simp [splitP]
  | cons c cs ih =>
    rw [splitP]
    by_cases hc : p c
    · simp [hc]
    · simp only [hc]
      cases hsp : splitP p cs with
      | nil => simp
      | cons t ts => simp

theorem splitP_chars (p : Char → Bool) (l : List Char) :
    ∀ t ∈ splitP p l, ∀ c ∈ t, p c = false := by
  induction l with
  | nil =>
    intro t ht
    simp [splitP] at ht
    simp [ht]
  | cons x xs ih =>
    intro t ht c hc
    rw [splitP] at ht
    by_cases hx : p x
    · simp only [hx, if_true, List.mem_cons] at ht
      rcases ht with rfl | ht
      · simp at hc
      · exact ih t ht c hc
    · simp only [hx, if_false] at ht
      cases hsp : splitP p xs with
      | nil => exact absurd hsp (splitP_ne_nil p xs)
      | cons u us =>
        rw [hsp] at ht
        rcases List.mem_cons.mp ht with rfl | ht
        · rcases List.mem_cons.mp hc with rfl | hc
          · simpa using hx
          · exact ih u (hsp ▸ List.mem_cons_self u us) c hc
        · exact ih t (hsp ▸ List.mem_cons.mpr (Or.inr ht)) c hc

theorem splitP_delim_cons (p : Char → Bool) (d : Char) (l : List Char) (hd : p d = true) :
    splitP p (d :: l) = [] :: splitP p l := by
  rw [splitP]
  simp [hd]

theorem splitP_append_clean (p : Char → Bool) (xs ys : List Char)
    (hxs : ∀ c ∈ xs, p c = false) (t : List Char) (ts : List (List Char))
    (hys : splitP p ys = t :: ts) :
    splitP p (xs ++ ys) = (xs ++ t) :: ts := by
  induction xs with
  | nil => simpa using hys
  | cons x xs ih =>
    have hx : p x = false := hxs x (List.mem_cons_self x xs)
    have ihs : splitP p (xs ++ ys) = (xs ++ t) :: ts :=
      ih fun c hc => hxs c (List.mem_cons.mpr (Or.inr hc))
    rw [List.cons_append, splitP, ihs]
    simp [hx]

theorem splitP_clean (p : Char → Bool) (xs : List Char)
    (hxs : ∀ c ∈ xs, p c = false) : splitP p xs = [xs] := by
  have := splitP_append_clean p xs [] hxs [] [] (by simp [splitP])
  simpa using this

theorem tokenize_tokens (s : List Char) :
    ∀ t ∈ tokenize s, t ≠ [] ∧ ∀ c ∈ t, isAlnum c = true := by
  intro t ht
  unfold tokenize at ht
  by_cases hs : s.isEmpty
  · simp [hs] at ht
  · simp only [hs, if_false] at ht
    obtain ⟨hmem, hne⟩ := List.mem_filter.mp ht
    refine ⟨by simpa using hne, ?_⟩
    intro c hc
    have := splitP_chars (fun c => !isAlnum c) (s.map Char.toLower) t hmem c hc
    simpa using this

theorem intercalate_nil (s : List Char) : List.intercalate s ([] : List (List Char)) = [] := by
  simp [List.intercalate]

theorem intercalate_single (s t : List Char) : List.intercalate s [t] = t := by
  simp [List.intercalate, List.intersperse]

theorem intercalate_cons2 (s t u : List Char) (us : List (List Char)) :
    List.intercalate s (t :: u :: us) = t ++ s ++ List.intercalate s (u :: us) := by
  simp [List.intercalate, List.intersperse]

theorem mem_intercalate_space (toks : List (List Char)) (c : Char)
    (hc : c ∈ List.intercalate [' '] toks) : c = ' ' ∨ ∃ t ∈ toks, c ∈ t := by
  induction toks with
  | nil => simp [intercalate_nil] at hc
  | cons t ts ih =>
    cases ts with
    | nil =>
      rw [intercalate_single] at hc
      exact Or.inr ⟨t, List.mem_cons_self t [], hc⟩
    | cons u us =>
      rw [intercalate_cons2] at hc
      simp only [List.append_assoc, List.mem_append] at hc
      rcases hc with hc | hc | hc
      · exact Or.inr ⟨t, List.mem_cons_self t (u :: us), hc⟩
      · simp at hc
        exact Or.inl hc
      · rcases ih hc with hc | ⟨v, hv, hcv⟩
        · exact Or.inl hc
        · exact Or.inr ⟨v, List.mem_cons.mpr (Or.inr hv), hcv⟩

theorem map_toLower_fixed (l : List Char)
    (h : ∀ c ∈ l, isAlnum c = true ∨ c = ' ') : l.map Char.toLower = l := by
  induction l with
  | nil => rfl
  | cons c cs ih =>
    have hc := h c (List.mem_cons_self c cs)
    have hcs := ih fun d hd => h d (List.mem_cons.mpr (Or.inr hd))
    rcases hc with hc | rfl
    · simp [List.map, toLower_fixed hc, hcs]
    · simp only [List.map, hcs]
      have : ' '.toLower = ' ' := by decide
      rw [this]

theorem tokenize_intercalate (toks : List (List Char))
    (h : ∀ t ∈ toks, t ≠ [] ∧ ∀ c ∈ t, isAlnum c = true) :
    tokenize (List.intercalate [' '] toks) = toks := by
  induction toks with
  | nil => simp [intercalate_nil, tokenize]
  | cons t ts ih =>
    have ht := h t (List.mem_cons_self t ts)
    have hlower : (List.intercalate [' '] (t :: ts)).map Char.toLower =
        List.intercalate [' '] (t :: ts) := by
      apply map_toLower_fixed
      intro c hc
      rcases mem_intercalate_space _ c hc with rfl | ⟨v, hv, hcv⟩
      · exact Or.inr rfl
      · exact Or.inl ((h v hv).2 c hcv)
    have hclean : ∀ c ∈ t, (fun c => !isAlnum c) c = false := by
      intro c hc
      simp [ht.2 c hc]
    cases ts with
    | nil =>
      rw [intercalate_single]
      unfold tokenize
      rw [intercalate_single] at hlower
      have hne : t.isEmpty = false := by
        simpa [List.isEmpty_iff] using ht.1
      rw [hne]
      simp only [Bool.false_eq_true, if_false, hlower]
      rw [splitP_clean _ t hclean]
      simp [List.filter, hne]
    | cons u us =>
      have hu := h u (by simp)
      have ihts : tokenize (List.intercalate [' '] (u :: us)) = u :: us :=
        ih fun v hv => h v (List.mem_cons.mpr (Or.inr hv))
      set rest := List.intercalate [' '] (u :: us) with hrest
      have hrestne : rest ≠ [] := by
        rw [hrest]
        cases us with
        | nil =>
          rw [intercalate_single]
          exact hu.1
        | cons w ws =>
          rw [intercalate_cons2]
          intro hcon
          simp only [List.append_assoc, List.append_eq_nil] at hcon
          exact hu.1 hcon.1
      have hrestlower : rest.map Char.toLower = rest := by
        apply map_toLower_fixed
        intro c hc
        rcases mem_intercalate_space _ c hc with rfl | ⟨v, hv, hcv⟩
        · exact Or.inr rfl
        · exact Or.inl ((h v (List.mem_cons.mpr (Or.inr hv))).2 c hcv)
      obtain ⟨r, rs, hr⟩ := List.exists_cons_of_ne_nil
        (splitP_ne_nil (fun c => !isAlnum c) rest)
      have hsp : splitP (fun c => !isAlnum c) (List.intercalate [' '] (t :: u :: us)) =
          t :: r :: rs := by
        rw [intercalate_cons2, List.append_assoc]
        have hdelim : splitP (fun c => !isAlnum c) ([' '] ++ rest) = [] :: r :: rs := by
          rw [List.singleton_append, splitP_delim_cons _ _ _ (by decide), hr]
        have hres := splitP_append_clean (fun c => !isAlnum c) t ([' '] ++ rest)
          hclean [] (r :: rs) hdelim
        simp only [List.append_nil] at hres
        exact hres
      have hsintne : (List.intercalate [' '] (t :: u :: us)).isEmpty = false := by
        rw [intercalate_cons2]
        have hne2 : t ++ [' '] ++ rest ≠ [] := by
          intro hcon
          simp only [List.append_assoc, List.append_eq_nil] at hcon
          exact ht.1 hcon.1
        simp [List.isEmpty_iff, hne2]
      have htkept : (!t.isEmpty) = true := by
        simpa [List.isEmpty_iff] using ht.1
      have hmain : tokenize (List.intercalate [' '] (t :: u :: us)) =
          (splitP (fun c => !isAlnum c)
            (List.intercalate [' '] (t :: u :: us))).filter (fun t => !t.isEmpty) := by
        unfold tokenize
        rw [hsintne, hlower]
        simp
      rw [hmain, hsp]
      have hrfilter : (r :: rs).filter (fun t => !t.isEmpty) = u :: us := by
        have h1 : tokenize rest =
            (splitP (fun c => !isAlnum c) rest).filter (fun t => !t.isEmpty) := by
          unfold tokenize
          have hre : rest.isEmpty = false := by simpa [List.isEmpty_iff] using hrestne
          rw [hre, hrestlower]
          simp
        rw [← hr, ← h1, ihts]
      simp [List.filter_cons, htkept, hrfilter]

/-- C9: tokenize yields nonempty lowercase-alphanumeric tokens (empty input
yields no tokens), and it is idempotent: re-tokenizing the tokens joined by a
single space gives the same token list. -/
theorem tokenize_spec (s : List Char) :
    tokenize [] = [] ∧
    ((tokenize s).all fun t => !t.isEmpty && t.all isAlnum) = true ∧
    tokenize (List.intercalate [' '] (tokenize s)) = tokenize s := by
  refine ⟨rfl, ?_, tokenize_intercalate _ (tokenize_tokens s)⟩
  rw [List.all_eq_true]
  intro t ht
  obtain ⟨hne, hall⟩ := tokenize_tokens s t ht
  rw [Bool.and_eq_true]
  constructor
  · simpa [List.isEmpty_iff] using hne
  · rw [List.all_eq_true]
    exact hall

/-! ### Vector similarity lemmas -/

theorem foldl_add_map {α : Type} (f : α → ℚ) (l : List α) (init : ℚ) :
    l.foldl (fun s x => s + f x) init = init + (l.map f).sum := by
  induction l generalizing init with
  | nil => simp
  | cons x xs ih =>
    simp only [List.foldl_cons, List.map_cons, List.sum_cons, ih]
    ring

theorem range_min_map (a b : List ℚ) :
    (List.range (min a.length b.length)).map (fun i => a.getD i 0 * b.getD i 0) =
      (a.zip b).map (fun p => p.1 * p.2) := by
  induction a generalizing b with
  | nil => simp
  | cons x xs ih =>
    cases b with
    | nil => simp
    | cons y ys =>
      simp only [List.length_cons, Nat.succ_min_succ]
      rw [List.range_succ_eq_map]
      simp only [List.map_cons, List.map_map]
      have hcomp : ((fun i => (x :: xs).getD i 0 * (y :: ys).getD i 0) ∘ Nat.succ) =
          fun i => xs.getD i 0 * ys.getD i 0 := by
        funext i
        simp [Function.comp, List.getD_cons_succ]
      rw [hcomp, ih ys]
      simp [List.zip_cons_cons]

theorem dot_eq_zip (a b : List ℚ) :
    dot a b = ((a.zip b).map fun p => p.1 * p.2).sum := by
  unfold dot
  rw [foldl_add_map (fun i => a.getD i 0 * b.getD i 0) (List.range (min a.length b.length)) 0]
  rw [range_min_map]
  ring

theorem zip_mul_sum_comm (a b : List ℚ) :
    ((a.zip b).map fun p => p.1 * p.2).sum = ((b.zip a).map fun p => p.1 * p.2).sum := by
  induction a generalizing b with
  | nil => simp
  | cons x xs ih =>
    cases b with
    | nil => simp
    | cons y ys =>
      simp only [List.zip_cons_cons, List.map_cons, List.sum_cons]
      rw [mul_comm x y, ih ys]

theorem dot_comm (a b : List ℚ) : dot a b = dot b a := by
  rw [dot_eq_zip, dot_eq_zip, zip_mul_sum_comm]

theorem cosineSim_eq_zero (a b : List ℚ) (h : magSq a = 0 ∨ magSq b = 0) :
    cosineSim a b = 0 := by
  unfold cosineSim
  rw [if_neg]
  tauto

/-- C4: the dot product silently truncates to the shorter of the two vectors
(it is the sum of pointwise products of the zipped vectors), cosine similarity
is exactly 0 whenever either squared magnitude is 0, and a chunk with an
absent embedding is scored against the empty vector and always receives
similarity 0 (a real number, never an undefined value). -/
theorem cosine_zero_safety :
    (∀ a b : List ℚ, dot a b = ((a.zip b).map fun p => p.1 * p.2).sum) ∧
    (∀ a b : List ℚ, magSq a = 0 ∨ magSq b = 0 → cosineSim a b = 0) ∧
    (∀ (q : List ℚ) (ch : Chunk), ch.embedding = none →
      cosineSim q (ch.embedding.getD []) = 0) := by
  refine ⟨dot_eq_zip, cosineSim_eq_zero, ?_⟩
  intro q ch h
  rw [h]
  exact cosineSim_eq_zero q [] (Or.inr rfl)

/-- Witness for C4 at a concrete input: the zero vector has zero magnitude and
cosine similarity 0 against the vector containing 1. -/
theorem cosine_zero_safety_witness :
    (magSq [(0 : ℚ)] = 0 ∨ magSq [(1 : ℚ)] = 0) ∧ cosineSim [(0 : ℚ)] [(1 : ℚ)] = 0 := by
  have h : magSq [(0 : ℚ)] = 0 ∨ magSq [(1 : ℚ)] = 0 := Or.inl (by norm_num [magSq])
  exact ⟨h, cosine_zero_safety.2.1 [(0 : ℚ)] [(1 : ℚ)] h⟩

/-- C10: cosine similarity is symmetric for all vector pairs, of equal or of
different lengths: the min-length dot product, the magnitudes and the
zero-magnitude guard are all symmetric in the two arguments. -/
theorem cosine_symm (a b : List ℚ) : cosineSim a b = cosineSim b a := by
  unfold cosineSim
  rw [dot_comm a b, mul_comm (magSq a) (magSq b)]
  exact if_congr and_comm rfl rfl

/-! ### Fallback scoring lemmas -/

theorem length_filter_eq_sum {α : Type} (p : α → Bool) (l : List α) :
    (l.filter p).length = (l.map fun a => if p a then 1 else 0).sum := by
  induction l with
  | nil => rfl
  | cons x xs ih =>
    by_cases hx : p x
    · simp only [List.filter_cons, hx, if_true, List.length_cons, List.map_cons,
        List.sum_cons, ih]
      omega
    · have hxf : p x = false := by simpa using hx
      simp [List.filter_cons, hxf, ih]

/-- C3: in the fallback path each chunk's score is the number of query token
occurrences (duplicates counted once per occurrence) that appear somewhere in
the chunk's token list; a chunk sharing strictly more query token occurrences
than another therefore receives a strictly higher score. -/
theorem fallback_scoring_spec :
    (∀ (q : List Char) (ch : Chunk), fallbackScore q ch =
      ((tokenize q).map fun t => if (tokenize ch.text).contains t then 1 else 0).sum) ∧
    (∀ (q : List Char) (c1 c2 : Chunk),
      ((tokenize q).map fun t => if (tokenize c1.text).contains t then 1 else 0).sum >
        ((tokenize q).map fun t => if (tokenize c2.text).contains t then 1 else 0).sum →
      fallbackScore q c1 > fallbackScore q c2) := by
  have hmain : ∀ (q : List Char) (ch : Chunk), fallbackScore q ch =
      ((tokenize q).map fun t => if (tokenize ch.text).contains t then 1 else 0).sum :=
    fun q ch => length_filter_eq_sum _ _
  refine ⟨hmain, fun q c1 c2 h => ?_⟩
  rw [hmain q c1, hmain q c2]
  exact h

/-- Witness for C3 on scenario C: close the store shares two token
occurrences with the store chunk and none with the unrelated chunk, so the
first scores strictly higher. -/
theorem fallback_scoring_spec_witness :
    (((tokenize sampleQuery).map
        fun t => if (tokenize sampleChunkA.text).contains t then 1 else 0).sum >
      ((tokenize sampleQuery).map
        fun t => if (tokenize sampleChunkB.text).contains t then 1 else 0).sum) ∧
    fallbackScore sampleQuery sampleChunkA > fallbackScore sampleQuery sampleChunkB := by
  have h : ((tokenize sampleQuery).map
        fun t => if (tokenize sampleChunkA.text).contains t then 1 else 0).sum >
      ((tokenize sampleQuery).map
        fun t => if (tokenize sampleChunkB.text).contains t then 1 else 0).sum := by decide
  exact ⟨h, fallback_scoring_spec.2 sampleQuery sampleChunkA sampleChunkB h⟩

/-! ### Ranking lemmas -/

theorem insertDesc_length (c : ScoredChunk) (l : List ScoredChunk) :
    (insertDesc c l).length = l.length + 1 := by
  induction l with
  | nil => simp [insertDesc]
  | cons d ds ih =>
    rw [insertDesc]
    by_cases h : d.score ≤ c.score
    · simp [h]
    · simp [h, ih]

theorem sortDesc_length (l : List ScoredChunk) : (sortDesc l).length = l.length := by
  induction l with
  | nil => simp [sortDesc]
  | cons c cs ih => simp [sortDesc, insertDesc_length, ih]

theorem mem_insertDesc (x c : ScoredChunk) (l : List ScoredChunk) :
    x ∈ insertDesc c l ↔ x = c ∨ x ∈ l := by
  induction l with
  | nil => simp [insertDesc]
  | cons d ds ih =>
    rw [insertDesc]
    by_cases h : d.score ≤ c.score
    · simp [h, List.mem_cons]
    · simp only [h, if_false, List.mem_cons, ih]
      tauto

theorem insertDesc_sorted (c : ScoredChunk) (l : List ScoredChunk)
    (hl : List.Sorted (fun x y : ScoredChunk => y.score ≤ x.score) l) :
    List.Sorted (fun x y : ScoredChunk => y.score ≤ x.score) (insertDesc c l) := by
  induction l with
  | nil => simp [insertDesc]
  | cons d ds ih =>
    rw [List.sorted_cons] at hl
    obtain ⟨hd, hds⟩ := hl
    rw [insertDesc]
    by_cases h : d.score ≤ c.score
    · simp only [h, if_true]
      rw [List.sorted_cons]
      refine ⟨?_, List.sorted_cons.mpr ⟨hd, hds⟩⟩
      intro b hb
      rcases List.mem_cons.mp hb with rfl | hb
      · exact h
      · exact le_trans (hd b hb) h
    · simp only [h, if_false]
      rw [List.sorted_cons]
      constructor
      · intro b hb
        rcases (mem_insertDesc b c ds).mp hb with rfl | hb
        · exact le_of_lt (not_le.mp h)
        · exact hd b hb
      · exact ih hds

theorem sortDesc_sorted (l : List ScoredChunk) :
    List.Sorted (fun x y : ScoredChunk => y.score ≤ x.score) (sortDesc l) := by
  induction l with
  | nil => simp [sortDesc]
  | cons c cs ih => exact insertDesc_sorted c (sortDesc cs) ih

theorem filter_insertDesc (c : ScoredChunk) (l : List ScoredChunk) (s : ℝ) :
    (insertDesc c l).filter (fun d => decide (d.score = s)) =
      if c.score = s then c :: l.filter (fun d => decide (d.score = s))
      else l.filter (fun d => decide (d.score = s)) := by
  induction l with
  | nil =>
    by_cases hc : c.score = s
    · simp [insertDesc, List.filter, hc]
    · simp [insertDesc, List.filter, hc]
  | cons d ds ih =>
    rw [insertDesc]
    by_cases h : d.score ≤ c.score
    · simp only [h, if_true]
      by_cases hc : c.score = s <;> by_cases hd : d.score = s <;>
        simp [List.filter_cons, hc, hd, decide_eq_true_eq]
    · simp only [h, if_false]
      have hlt : c.score < d.score := not_le.mp h
      by_cases hc : c.score = s
      · have hdne : ¬(d.score = s) := by
          intro hds
          rw [← hc] at hds
          exact absurd hds (ne_of_gt hlt)
        simp [List.filter_cons, hdne, ih, hc, decide_eq_true_eq]
      · by_cases hd : d.score = s <;>
          simp [List.filter_cons, hd, ih, hc, decide_eq_true_eq]

theorem filter_sortDesc (l : List ScoredChunk) (s : ℝ) :
    (sortDesc l).filter (fun d => decide (d.score = s)) =
      l.filter (fun d => decide (d.score = s)) := by
  induction l with
  | nil => simp [sortDesc]
  | cons c cs ih =>
    rw [show sortDesc (c :: cs) = insertDesc c (sortDesc cs) from rfl]
    rw [filter_insertDesc]
    by_cases hc : c.score = s <;>
      simp [List.filter_cons, hc, ih, decide_eq_true_eq]

theorem rankTop_length (l : List ScoredChunk) : (rankTop l).length = min l.length 5 := by
  unfold rankTop
  rw [List.length_take, sortDesc_length, Nat.min_comm]

theorem rankTop_sorted (l : List ScoredChunk) :
    List.Sorted (fun x y : ScoredChunk => y.score ≤ x.score) (rankTop l) :=
  List.Pairwise.sublist (List.take_sublist 5 (sortDesc l)) (sortDesc_sorted l)

theorem rankTop_filter_prefix (l : List ScoredChunk) (s : ℝ) :
    (rankTop l).filter (fun d => decide (d.score = s)) <+:
      l.filter (fun d => decide (d.score = s)) := by
  unfold rankTop
  have h1 := (List.take_prefix 5 (sortDesc l)).filter (fun d => decide (d.score = s))
  rw [filter_sortDesc] at h1
  exact h1

theorem scoreIndex_length (qe : Option (List ℚ)) (question : List Char) (idx : List Chunk) :
    (scoreIndex qe question idx).length = idx.length := by
  cases qe <;> simp [scoreIndex]

theorem handleAsk_pos (e : HttpResp (Option (List ℚ))) (a : HttpResp (Option (List Char)))
    (idx : List Chunk) (q : List Char) (prev : Option Answer) (h : trim q ≠ []) :
    handleAsk e a idx q prev =
      ⟨some ⟨callAnswerAPI a, rankTop (scoreIndex (fetchEmbedding e) (trim q) idx)⟩, 1, 1,
        some (joinContext ((rankTop (scoreIndex (fetchEmbedding e) (trim q) idx)).map
          fun sc => sc.chunk.text))⟩ := by
  unfold handleAsk
  rw [if_neg h]

theorem askSources_pos (e : HttpResp (Option (List ℚ))) (a : HttpResp (Option (List Char)))
    (idx : List Chunk) (q : List Char) (prev : Option Answer) (h : trim q ≠ []) :
    askSources e a idx q prev = rankTop (scoreIndex (fetchEmbedding e) (trim q) idx) := by
  unfold askSources
  rw [handleAsk_pos e a idx q prev h]
  rfl

/-- C2: after an ask with a nonempty trimmed question, the displayed source
list has exactly min(N, 5) entries for an index of N chunks, is sorted in
descending score order, and within every score class its entries are a prefix
of the scored index in insertion order, so equal-score chunks appear in their
original insertion order. -/
theorem ranking_spec (e : HttpResp (Option (List ℚ))) (a : HttpResp (Option (List Char)))
    (idx : List Chunk) (q : List Char) (prev : Option Answer) (h : trim q ≠ []) :
    (askSources e a idx q prev).length = min idx.length 5 ∧
    List.Sorted (fun x y : ScoredChunk => y.score ≤ x.score) (askSources e a idx q prev) ∧
    ∀ s : ℝ, (askSources e a idx q prev).filter (fun c => decide (c.score = s)) <+:
      (scoreIndex (fetchEmbedding e) (trim q) idx).filter (fun c => decide (c.score = s)) := by
  rw [askSources_pos e a idx q prev h]
  refine ⟨?_, rankTop_sorted _, fun s => rankTop_filter_prefix _ s⟩
  rw [rankTop_length, scoreIndex_length]

/-- Witness for C2 at a concrete ask: a failing embedding provider, a failing
generation provider, a one-chunk index and the question hi. -/
theorem ranking_spec_witness :
    trim ['h', 'i'] ≠ [] ∧
    ((askSources HttpResp.net_err HttpResp.net_err [sampleChunk] ['h', 'i'] none).length =
        min [sampleChunk].length 5 ∧
      List.Sorted (fun x y : ScoredChunk => y.score ≤ x.score)
        (askSources HttpResp.net_err HttpResp.net_err [sampleChunk] ['h', 'i'] none) ∧
      ∀ s : ℝ,
        (askSources HttpResp.net_err HttpResp.net_err [sampleChunk] ['h', 'i'] none).filter
            (fun c => decide (c.score = s)) <+:
          (scoreIndex (fetchEmbedding HttpResp.net_err) (trim ['h', 'i'])
              [sampleChunk]).filter (fun c => decide (c.score = s))) := by
  have h : trim ['h', 'i'] ≠ [] := by decide
  exact ⟨h, ranking_spec HttpResp.net_err HttpResp.net_err [sampleChunk] ['h', 'i'] none h⟩

/-! ### Error handling and context assembly -/

/-- C8: a question that trims to empty returns before any state change or
network request: the answer slot keeps its previous value and zero embedding
and zero generation requests are made. -/
theorem empty_question_noop (e : HttpResp (Option (List ℚ)))
    (a : HttpResp (Option (List Char))) (idx : List Chunk) (q : List Char)
    (prev : Option Answer) (h : trim q = []) :
    handleAsk e a idx q prev = ⟨prev, 0, 0, none⟩ := by
  unfold handleAsk
  rw [if_pos h]

/-- Witness for C8 on the whitespace-only question consisting of one space. -/
theorem empty_question_noop_witness :
    trim [' '] = [] ∧
    handleAsk HttpResp.net_err HttpResp.net_err [] [' '] none = ⟨none, 0, 0, none⟩ := by
  have h : trim [' '] = [] := by decide
  exact ⟨h, empty_question_noop HttpResp.net_err HttpResp.net_err [] [' '] none h⟩

/-- Counterexample to C6 as stated: a settled 200 response whose body parses
but carries no answer string is malformed with respect to the documented
response contract, yet the completed ask stores an absent answer text, not the
fixed apology string. -/
theorem answer_fallback_counterexample :
    (handleAsk HttpResp.net_err (HttpResp.http true (Except.ok none)) [] ['h', 'i']
        none).answer = some ⟨none, []⟩ ∧
    (none : Option (List Char)) ≠ some fallbackAnswer := by
  constructor
  · rfl
  · simp

/-- C6 amended: for every generation-provider failure that the client's
try/catch observes (network error, non-success status, or a body that fails
parsing), the ask still completes, the answer text is exactly the apology
string, and the sources are the top-ranked chunks whose texts were joined
into the context sent to the provider. -/
theorem answer_fallback_amended (e : HttpResp (Option (List ℚ)))
    (a : HttpResp (Option (List Char))) (idx : List Chunk) (q : List Char)
    (prev : Option Answer) (hfail : answerFailed a = true) (hq : trim q ≠ []) :
    (handleAsk e a idx q prev).answer =
      some ⟨some fallbackAnswer, rankTop (scoreIndex (fetchEmbedding e) (trim q) idx)⟩ ∧
    (handleAsk e a idx q prev).contextSent =
      some (joinContext ((rankTop (scoreIndex (fetchEmbedding e) (trim q) idx)).map
        fun sc => sc.chunk.text)) := by
  have hca : callAnswerAPI a = some fallbackAnswer := by
    cases a with
    | net_err => rfl
    | http ok body =>
      cases ok with
      | false => rfl
      | true =>
        cases body with
        | error u => rfl
        | ok b => simp [answerFailed] at hfail
  rw [handleAsk_pos e a idx q prev hq, hca]
  exact ⟨rfl, rfl⟩

/-- Witness for the amended C6 at a rejected generation request. -/
theorem answer_fallback_amended_witness :
    answerFailed HttpResp.net_err = true ∧ trim ['h', 'i'] ≠ [] ∧
    (handleAsk HttpResp.net_err HttpResp.net_err [] ['h', 'i'] none).answer =
      some ⟨some fallbackAnswer,
        rankTop (scoreIndex (fetchEmbedding HttpResp.net_err) (trim ['h', 'i']) [])⟩ := by
  have h1 : answerFailed HttpResp.net_err = true := rfl
  have h2 : trim ['h', 'i'] ≠ [] := by decide
  exact ⟨h1, h2,
    (answer_fallback_amended HttpResp.net_err HttpResp.net_err [] ['h', 'i'] none h1 h2).1⟩

/-- C7: after every embedding-provider failure (network error, non-success
status, unparseable body, or parseable body with no embedding field)
fetchEmbedding resolves to an absent value instead of raising, and an ask in
that state scores every chunk by token overlap instead of cosine similarity. -/
theorem embed_failure_spec :
    (∀ r, embedFailed r = true → fetchEmbedding r = none) ∧
    (∀ (e : HttpResp (Option (List ℚ))) (a : HttpResp (Option (List Char)))
      (idx : List Chunk) (q : List Char) (prev : Option Answer),
      embedFailed e = true → trim q ≠ [] →
      (handleAsk e a idx q prev).answer =
        some ⟨callAnswerAPI a,
          rankTop (idx.map fun ch => ⟨ch, ((fallbackScore (trim q) ch : ℕ) : ℝ)⟩)⟩) := by
  have h1 : ∀ r, embedFailed r = true → fetchEmbedding r = none := by
    intro r hr
    cases r with
    | net_err => rfl
    | http ok body =>
      cases ok with
      | false => rfl
      | true =>
        cases body with
        | error u => rfl
        | ok b =>
          cases b with
          | none => rfl
          | some v => simp [embedFailed] at hr
  refine ⟨h1, ?_⟩
  intro e a idx q prev he hq
  rw [handleAsk_pos e a idx q prev hq, h1 e he]
  rfl

/-- Witness for C7 at a concrete 500-style failure (settled response with a
non-success status). -/
theorem embed_failure_spec_witness :
    embedFailed (HttpResp.http false (Except.error ())) = true ∧
    fetchEmbedding (HttpResp.http false (Except.error ())) = none ∧
    trim ['h', 'i'] ≠ [] ∧
    (handleAsk (HttpResp.http false (Except.error ())) HttpResp.net_err [] ['h', 'i']
        none).answer =
      some ⟨callAnswerAPI HttpResp.net_err,
        rankTop (([] : List Chunk).map
          fun ch => ⟨ch, ((fallbackScore (trim ['h', 'i']) ch : ℕ) : ℝ)⟩)⟩ := by
  have h1 : embedFailed (HttpResp.http false (Except.error ())) = true := rfl
  have h2 : trim ['h', 'i'] ≠ [] := by decide
  exact ⟨h1, embed_failure_spec.1 _ h1, h2,
    embed_failure_spec.2 (HttpResp.http false (Except.error ())) HttpResp.net_err []
      ['h', 'i'] none h1 h2⟩

theorem joinContext_cons2 (t u : List Char) (us : List (List Char)) :
    joinContext (t :: u :: us) = t ++ ctxSep ++ joinContext (u :: us) :=
  intercalate_cons2 ctxSep t u us

theorem joinContext_length_le (ts : List (List Char))
    (h500 : ∀ t ∈ ts, t.length ≤ 500) :
    (joinContext ts).length ≤ ts.length * 500 + (ts.length - 1) * 5 := by
  induction ts with
  | nil => simp [joinContext, intercalate_nil]
  | cons t ts ih =>
    have ht := h500 t (List.mem_cons_self t ts)
    cases ts with
    | nil =>
      rw [show joinContext [t] = t from intercalate_single ctxSep t]
      simpa using ht
    | cons u us =>
      have ihh := ih fun v hv => h500 v (List.mem_cons.mpr (Or.inr hv))
      rw [joinContext_cons2]
      have hsep : ctxSep.length = 5 := rfl
      simp only [List.length_append, List.length_cons, hsep] at ihh ⊢
      omega

/-- Counterexample to C5 as stated: two ranked chunks of the full 500
characters (k = 2 at most 5, every text within the 500-character chunk size)
assemble to a context of 1005 characters, exceeding the claimed bound
k times chunk-size = 1000, because the five-character separator is added
between consecutive chunks. -/
theorem context_assembly_counterexample :
    ([List.replicate 500 'a', List.replicate 500 'a'] : List (List Char)).length ≤ 5 ∧
    (([List.replicate 500 'a', List.replicate 500 'a'] : List (List Char)).all
      fun t => t.length ≤ 500) = true ∧
    2 * 500 < (joinContext [List.replicate 500 'a', List.replicate 500 'a']).length := by
  refine ⟨?_, ?_, ?_⟩
  · simp only [List.length_cons, List.length_nil]
    omega
  · simp only [List.all_cons, List.all_nil, Bool.and_eq_true, decide_eq_true_eq,
      List.length_replicate]
    trivial
  · rw [joinContext_cons2,
      show joinContext [List.replicate 500 'a'] = List.replicate 500 'a' from
        intercalate_single ctxSep (List.replicate 500 'a')]
    simp only [List.length_append, List.length_replicate, ctxSep, List.length_cons,
      List.length_nil]
    omega

/-- C5 amended: the context is the ranked chunk texts joined with the fixed
five-character separator between consecutive chunks preserving rank order, and
for at most 5 texts of at most the 500-character chunk size its length is
bounded by k times chunk-size plus (k - 1) times the separator length,
that is 2520 for k = 5. -/
theorem context_assembly_amended (ts : List (List Char)) (h5 : ts.length ≤ 5)
    (h500 : ∀ t ∈ ts, t.length ≤ 500) :
    (∀ (t u : List Char) (us : List (List Char)),
      joinContext (t :: u :: us) = t ++ ctxSep ++ joinContext (u :: us)) ∧
    (joinContext ts).length ≤ ts.length * 500 + (ts.length - 1) * 5 ∧
    (joinContext ts).length ≤ 5 * 500 + 4 * 5 := by
  refine ⟨joinContext_cons2, joinContext_length_le ts h500, ?_⟩
  have h1 := joinContext_length_le ts h500
  omega

/-- Witness for the amended C5 on two one-character texts. -/
theorem context_assembly_amended_witness :
    ([['a'], ['b']] : List (List Char)).length ≤ 5 ∧
    (∀ t ∈ ([['a'], ['b']] : List (List Char)), t.length ≤ 500) ∧
    (joinContext [['a'], ['b']]).length ≤
      ([['a'], ['b']] : List (List Char)).length * 500 +
        (([['a'], ['b']] : List (List Char)).length - 1) * 5 := by
  have h5 : ([['a'], ['b']] : List (List Char)).length ≤ 5 := by decide
  have h500 : ∀ t ∈ ([['a'], ['b']] : List (List Char)), t.length ≤ 500 := by decide
  exact ⟨h5, h500, (context_assembly_amended [['a'], ['b']] h5 h500).2.1⟩
